import Mathlib

/-!
Verification of the BLEnky testing kit (src/main.py): a shallow embedding of
the signal codec, the BLE pending-read synchronizer, the test orchestrator,
the timing-window verifier and the chunked gpioASM upload, together with
theorems settling the specification claims about them.

Machine integers are modelled as Nat; Python float time is modelled with
exact rationals; Python exceptions are modelled with Except over explicit
error types; the asyncio future held in BlenkyLayer.ble_input_future is
modelled as an explicit state (pending, resolved, cancelled).
-/

/-! ## Signal codec (BlenkyLayer._encode_outputs / _decode_inputs) -/

/-- Python `x & ~m` on nonnegative ints: clear in `x` every bit set in `m`.
(`~m` is the infinite twos-complement of `m`; anding it into a nonnegative
`x` exactly clears the bits of `m`, which over Nat is `x ^^^ (x &&& m)`.) -/
def andNot (x m : Nat) : Nat := x ^^^ (x &&& m)

/-- One iteration of the encoding loop of `BlenkyLayer._encode_outputs`:
`output = outputs[i]; byte_index = int(i / 4); bit_index = int(i * 2) % 8;`
`data[byte_index] &= ~((~output & 0b11) << bit_index)`.
Python `~output & 0b11` equals `3 ^^^ (output &&& 3)`. -/
def encode_step (outputs : List Nat) (data : List Nat) (i : Nat) : List Nat :=
  data.set (i / 4) (andNot (data.getD (i / 4) 0) ((3 ^^^ (outputs.getD i 0 &&& 3)) <<< (i * 2 % 8)))

/-- `BlenkyLayer._encode_outputs`: `data = [0xff] * math.ceil(len(outputs) / 4)`,
then the loop `for i in range(len(outputs))` runs `encode_step`, and the byte
list is returned. -/
def _encode_outputs (outputs : List Nat) : List Nat :=
  (List.range outputs.length).foldl (encode_step outputs)
    (List.replicate ((outputs.length + 3) / 4) 0xff)

/-- The raw extraction loop of `BlenkyLayer._decode_inputs`: for each byte,
`for i in range(0, 8, 2): inputs.append((byte >> i) & 0b11)`. -/
def decodeRaw : List Nat → List Nat
  | [] => []
  | byte :: rest =>
      (byte &&& 3) :: ((byte >>> 2) &&& 3) :: ((byte >>> 4) &&& 3) :: ((byte >>> 6) &&& 3) ::
        decodeRaw rest

/-- The trailing-Unset trim of `BlenkyLayer._decode_inputs`:
`while len(inputs) > 0 and inputs[-1] == 0b11: inputs.pop(-1)`. -/
def trimUnset (l : List Nat) : List Nat :=
  (l.reverse.dropWhile (fun x => x == 3)).reverse

/-- `BlenkyLayer._decode_inputs`: raw 2-bit extraction followed by the
trailing-Unset trim. -/
def _decode_inputs (input_data : List Nat) : List Nat :=
  trimUnset (decodeRaw input_data)

/-- The value a byte of the encoding takes after the (up to) four channels
mapping to it have been processed, starting from `0xff`. -/
def packByte (a b c d : Nat) : Nat :=
  andNot (andNot (andNot (andNot 0xff ((3 ^^^ (a &&& 3)) <<< 0))
    ((3 ^^^ (b &&& 3)) <<< 2)) ((3 ^^^ (c &&& 3)) <<< 4)) ((3 ^^^ (d &&& 3)) <<< 6)

/-- Chunked restatement of the encoder: one output byte per (up to) four
channels, missing channels defaulting to Unset (`0b11`). -/
def encodeRec : List Nat → List Nat
  | [] => []
  | x :: rest =>
      packByte x (rest.getD 0 3) (rest.getD 1 3) (rest.getD 2 3) :: encodeRec (rest.drop 3)
termination_by l => l.length
decreasing_by simp [List.length_drop]; omega

theorem packByte_and (a b c d : Nat) :
    packByte a b c d = packByte (a &&& 3) (b &&& 3) (c &&& 3) (d &&& 3) := by
  simp [packByte, Nat.and_assoc]

theorem packByte_fields_lt : ∀ a < 4, ∀ b < 4, ∀ c < 4, ∀ d < 4,
    packByte a b c d &&& 3 = a ∧ (packByte a b c d >>> 2) &&& 3 = b ∧
    (packByte a b c d >>> 4) &&& 3 = c ∧ (packByte a b c d >>> 6) &&& 3 = d := by decide

theorem and_three_lt (x : Nat) : x &&& 3 < 4 := by
  have h : x &&& 3 ≤ 3 := Nat.and_le_right
  omega

theorem and_three_of_lt : ∀ x < 4, x &&& 3 = x := by decide

theorem packByte_field0 (a b c d : Nat) : packByte a b c d &&& 3 = a &&& 3 := by
  rw [packByte_and]
  exact (packByte_fields_lt (a &&& 3) (and_three_lt a) (b &&& 3) (and_three_lt b)
    (c &&& 3) (and_three_lt c) (d &&& 3) (and_three_lt d)).1

theorem packByte_field1 (a b c d : Nat) : (packByte a b c d >>> 2) &&& 3 = b &&& 3 := by
  rw [packByte_and]
  exact (packByte_fields_lt (a &&& 3) (and_three_lt a) (b &&& 3) (and_three_lt b)
    (c &&& 3) (and_three_lt c) (d &&& 3) (and_three_lt d)).2.1

theorem packByte_field2 (a b c d : Nat) : (packByte a b c d >>> 4) &&& 3 = c &&& 3 := by
  rw [packByte_and]
  exact (packByte_fields_lt (a &&& 3) (and_three_lt a) (b &&& 3) (and_three_lt b)
    (c &&& 3) (and_three_lt c) (d &&& 3) (and_three_lt d)).2.2.1

theorem packByte_field3 (a b c d : Nat) : (packByte a b c d >>> 6) &&& 3 = d &&& 3 := by
  rw [packByte_and]
  exact (packByte_fields_lt (a &&& 3) (and_three_lt a) (b &&& 3) (and_three_lt b)
    (c &&& 3) (and_three_lt c) (d &&& 3) (and_three_lt d)).2.2.2

theorem encode_step_shift (outputs : List Nat) (b : Nat) (tail : List Nat) (i : Nat) :
    encode_step outputs (b :: tail) (4 + i) = b :: encode_step (outputs.drop 4) tail i := by
  have hdiv : (4 + i) / 4 = i / 4 + 1 := by omega
  have hmod : (4 + i) * 2 % 8 = i * 2 % 8 := by omega
  have hgetD : outputs.getD (4 + i) 0 = (outputs.drop 4).getD i 0 := by
    simp [List.getD, List.getElem?_drop]
  simp [encode_step, hdiv, hmod, hgetD, List.getD_cons_succ]

theorem foldl_encode_step_shift (outputs : List Nat) (b : Nat) :
    ∀ (is : List Nat) (tail : List Nat),
    List.foldl (encode_step outputs) (b :: tail) (is.map (fun i => 4 + i)) =
      b :: List.foldl (encode_step (outputs.drop 4)) tail is := by
  intro is
  induction is with
  | nil => intro tail; rfl
  | cons i rest ih =>
    intro tail
    simp only [List.map_cons, List.foldl_cons, encode_step_shift]
    exact ih (encode_step (outputs.drop 4) tail i)

theorem foldl_encode_first (a b c d : Nat) (tail rest : List Nat) :
    List.foldl (encode_step (a :: b :: c :: d :: tail)) (0xff :: rest) [0, 1, 2, 3] =
      packByte a b c d :: rest := by
  simp [encode_step, packByte, List.foldl, List.getD]

theorem andNot_zero (x : Nat) : andNot x 0 = x := by
  simp [andNot]

theorem encode_eq_rec : ∀ l : List Nat, _encode_outputs l = encodeRec l := by
  intro l
  induction l using encodeRec.induct with
  | case1 => simp [_encode_outputs, encodeRec]
  | case2 x rest ih =>
    match rest with
    | [] =>
      simp [_encode_outputs, encodeRec, encode_step, packByte, List.foldl, List.getD, andNot_zero]
    | [b] =>
      simp [_encode_outputs, encodeRec, encode_step, packByte, List.foldl, List.getD, andNot_zero]
    | [b, c] =>
      simp [_encode_outputs, encodeRec, encode_step, packByte, List.foldl, List.getD, andNot_zero]
    | b :: c :: d :: tail =>
      have hlen : (x :: b :: c :: d :: tail).length = 4 + tail.length := by
        simp; omega
      have hrep : ((x :: b :: c :: d :: tail).length + 3) / 4 = (tail.length + 3) / 4 + 1 := by
        simp; omega
      have hdrop3 : (b :: c :: d :: tail).drop 3 = tail := rfl
      rw [_encode_outputs, hrep, hlen, List.range_add, List.foldl_append]
      rw [List.replicate_succ]
      have h1 : List.foldl (encode_step (x :: b :: c :: d :: tail))
          (0xff :: List.replicate ((tail.length + 3) / 4) 0xff) (List.range 4) =
          packByte x b c d :: List.replicate ((tail.length + 3) / 4) 0xff := by
        have : List.range 4 = [0, 1, 2, 3] := rfl
        rw [this, foldl_encode_first]
      rw [h1, foldl_encode_step_shift]
      have hdrop4 : (x :: b :: c :: d :: tail).drop 4 = tail := rfl
      rw [hdrop4]
      have h2 : List.foldl (encode_step tail)
          (List.replicate ((tail.length + 3) / 4) 0xff) (List.range tail.length) =
          _encode_outputs tail := rfl
      rw [h2, encodeRec, hdrop3]
      simp only [hdrop3] at ih
      simp [List.getD, ih]

theorem trim_append_replicate (ys : List Nat) (k : Nat) :
    trimUnset (ys ++ List.replicate k 3) = trimUnset ys := by
  unfold trimUnset
  rw [List.reverse_append, List.reverse_replicate]
  congr 1
  induction k with
  | zero => rfl
  | succ n ihn =>
    simp only [List.replicate_succ, List.dropWhile_cons]
    exact ihn

theorem trim_decomp (zs : List Nat) :
    ∃ k, zs = trimUnset zs ++ List.replicate k 3 := by
  refine ⟨(zs.reverse.takeWhile (fun x => x == 3)).length, ?_⟩
  have hrep : zs.reverse.takeWhile (fun x => x == 3) =
      List.replicate (zs.reverse.takeWhile (fun x => x == 3)).length 3 := by
    apply List.eq_replicate_of_mem
    intro b hb
    have hb3 := List.mem_takeWhile_imp hb
    simp at hb3
    exact hb3
  calc zs = zs.reverse.reverse := (zs.reverse_reverse).symm
    _ = (List.takeWhile (fun x => x == 3) zs.reverse ++
          List.dropWhile (fun x => x == 3) zs.reverse).reverse := by
        rw [List.takeWhile_append_dropWhile]
    _ = (List.dropWhile (fun x => x == 3) zs.reverse).reverse ++
          (List.takeWhile (fun x => x == 3) zs.reverse).reverse := by
        rw [List.reverse_append]
    _ = trimUnset zs ++ List.replicate (zs.reverse.takeWhile (fun x => x == 3)).length 3 := by
        congr 1
        rw [hrep, List.reverse_replicate, List.length_replicate]

theorem trim_append_congr (ys zs zs' : List Nat) (h : trimUnset zs = trimUnset zs') :
    trimUnset (ys ++ zs) = trimUnset (ys ++ zs') := by
  obtain ⟨k, hk⟩ := trim_decomp zs
  obtain ⟨k', hk'⟩ := trim_decomp zs'
  conv_lhs => rw [hk]
  conv_rhs => rw [hk']
  rw [← List.append_assoc, ← List.append_assoc, trim_append_replicate, trim_append_replicate, h]

theorem getD_lt_four (l : List Nat) (h : ∀ x ∈ l, x < 4) (i : Nat) : l.getD i 3 < 4 := by
  rcases Nat.lt_or_ge i l.length with hi | hi
  · rw [List.getD_eq_getElem l 3 hi]
    exact h _ (List.getElem_mem hi)
  · rw [List.getD_eq_default l 3 hi]
    omega

theorem decodeRaw_packByte_cons (a b c d : Nat) (bs : List Nat) :
    decodeRaw (packByte a b c d :: bs) =
      (a &&& 3) :: (b &&& 3) :: (c &&& 3) :: (d &&& 3) :: decodeRaw bs := by
  rw [decodeRaw, packByte_field0, packByte_field1, packByte_field2, packByte_field3]

theorem trim_decode_encodeRec :
    ∀ l : List Nat, (∀ x ∈ l, x < 4) → trimUnset (decodeRaw (encodeRec l)) = trimUnset l := by
  intro l
  induction l using encodeRec.induct with
  | case1 => intro _; simp [encodeRec, decodeRaw]
  | case2 x rest ih =>
    intro h
    have hx : x &&& 3 = x := and_three_of_lt x (h x (by simp))
    match rest with
    | [] =>
      have he : encodeRec [x] = [packByte x 3 3 3] := by simp [encodeRec]
      rw [he, decodeRaw_packByte_cons, hx]
      show trimUnset ([x] ++ List.replicate 3 (3 &&& 3)) = trimUnset [x]
      exact trim_append_replicate [x] 3
    | [b] =>
      have hb : b &&& 3 = b := and_three_of_lt b (h b (by simp))
      have he : encodeRec [x, b] = [packByte x b 3 3] := by simp [encodeRec]
      rw [he, decodeRaw_packByte_cons, hx, hb]
      show trimUnset ([x, b] ++ List.replicate 2 (3 &&& 3)) = trimUnset [x, b]
      exact trim_append_replicate [x, b] 2
    | [b, c] =>
      have hb : b &&& 3 = b := and_three_of_lt b (h b (by simp))
      have hc : c &&& 3 = c := and_three_of_lt c (h c (by simp))
      have he : encodeRec [x, b, c] = [packByte x b c 3] := by simp [encodeRec]
      rw [he, decodeRaw_packByte_cons, hx, hb, hc]
      show trimUnset ([x, b, c] ++ List.replicate 1 (3 &&& 3)) = trimUnset [x, b, c]
      exact trim_append_replicate [x, b, c] 1
    | b :: c :: d :: tail =>
      have hb : b &&& 3 = b := and_three_of_lt b (h b (by simp))
      have hc : c &&& 3 = c := and_three_of_lt c (h c (by simp))
      have hd : d &&& 3 = d := and_three_of_lt d (h d (by simp))
      have hdrop3 : (b :: c :: d :: tail).drop 3 = tail := rfl
      simp only [hdrop3] at ih
      have ihtail : trimUnset (decodeRaw (encodeRec tail)) = trimUnset tail := by
        apply ih
        intro y hy
        exact h y (by simp [hy])
      have he : encodeRec (x :: b :: c :: d :: tail) =
          packByte x b c d :: encodeRec tail := by
        rw [encodeRec, hdrop3]
        simp [List.getD_cons_zero, List.getD_cons_succ]
      rw [he, decodeRaw_packByte_cons, hx, hb, hc, hd]
      have hsplit : (x :: b :: c :: d :: decodeRaw (encodeRec tail)) =
          [x, b, c, d] ++ decodeRaw (encodeRec tail) := rfl
      have hsplit2 : (x :: b :: c :: d :: tail) = [x, b, c, d] ++ tail := rfl
      rw [hsplit, hsplit2]
      exact trim_append_congr [x, b, c, d] _ _ ihtail

theorem encodeRec_len : ∀ l : List Nat, (encodeRec l).length = (l.length + 3) / 4 := by
  intro l
  induction l using encodeRec.induct with
  | case1 => simp [encodeRec]
  | case2 x rest ih =>
    simp only [encodeRec, List.length_cons, List.length_drop] at *
    omega

theorem getD_shift_cons (x : Nat) (rest : List Nat) (i : Nat) (h4 : 4 ≤ i) :
    (x :: rest).getD i 0 = (rest.drop 3).getD (i - 4) 0 := by
  obtain ⟨j, rfl⟩ : ∃ j, i = j + 1 := ⟨i - 1, by omega⟩
  have h3 : 3 + (j + 1 - 4) = j := by omega
  rw [List.getD_cons_succ, List.getD_eq_getElem?_getD, List.getD_eq_getElem?_getD,
    List.getElem?_drop, h3]

theorem encodeRec_field_in :
    ∀ l : List Nat, ∀ i, i < l.length →
      ((encodeRec l).getD (i / 4) 0 >>> (i % 4 * 2)) &&& 3 = l.getD i 0 &&& 3 := by
  intro l
  induction l using encodeRec.induct with
  | case1 => intro i hi; simp at hi
  | case2 x rest ih =>
    intro i hi
    have he : encodeRec (x :: rest) =
        packByte x (rest.getD 0 3) (rest.getD 1 3) (rest.getD 2 3) :: encodeRec (rest.drop 3) := by
      rw [encodeRec]
    by_cases h4 : i < 4
    · have hz : i / 4 = 0 := by omega
      rw [he, hz, List.getD_cons_zero]
      interval_cases i
      · simp only [show (0 % 4 * 2 : Nat) = 0 from rfl, Nat.shiftRight_zero, packByte_field0,
          List.getD_cons_zero]
      · have h0 : 0 < rest.length := by simp at hi; omega
        have e1 : rest.getD 0 3 = rest.getD 0 0 := by
          rw [List.getD_eq_getElem rest 3 h0, List.getD_eq_getElem rest 0 h0]
        simp only [show (1 % 4 * 2 : Nat) = 2 from rfl, packByte_field1, e1]
        rw [List.getD_cons_succ]
      · have h0 : 1 < rest.length := by simp at hi; omega
        have e1 : rest.getD 1 3 = rest.getD 1 0 := by
          rw [List.getD_eq_getElem rest 3 h0, List.getD_eq_getElem rest 0 h0]
        simp only [show (2 % 4 * 2 : Nat) = 4 from rfl, packByte_field2, e1]
        rw [List.getD_cons_succ]
      · have h0 : 2 < rest.length := by simp at hi; omega
        have e1 : rest.getD 2 3 = rest.getD 2 0 := by
          rw [List.getD_eq_getElem rest 3 h0, List.getD_eq_getElem rest 0 h0]
        simp only [show (3 % 4 * 2 : Nat) = 6 from rfl, packByte_field3, e1]
        rw [List.getD_cons_succ]
    · have hdiv : i / 4 = (i - 4) / 4 + 1 := by omega
      have hmod : i % 4 = (i - 4) % 4 := by omega
      rw [he, hdiv, List.getD_cons_succ, hmod, getD_shift_cons x rest i (by omega)]
      apply ih
      simp only [List.length_drop]
      simp at hi
      omega

theorem encodeRec_field_pad :
    ∀ l : List Nat, ∀ i, l.length ≤ i → i / 4 < (l.length + 3) / 4 →
      ((encodeRec l).getD (i / 4) 0 >>> (i % 4 * 2)) &&& 3 = 3 := by
  intro l
  induction l using encodeRec.induct with
  | case1 => intro i hlen hbyte; simp at hbyte
  | case2 x rest ih =>
    intro i hlen hbyte
    simp only [List.length_cons] at hlen hbyte
    have he : encodeRec (x :: rest) =
        packByte x (rest.getD 0 3) (rest.getD 1 3) (rest.getD 2 3) :: encodeRec (rest.drop 3) := by
      rw [encodeRec]
    by_cases h4 : i < 4
    · have hz : i / 4 = 0 := by omega
      have hi1 : 1 ≤ i := by omega
      rw [he, hz, List.getD_cons_zero]
      interval_cases i
      · have e1 : rest.getD 0 3 = 3 := List.getD_eq_default rest 3 (by omega)
        simp only [show (1 % 4 * 2 : Nat) = 2 from rfl, packByte_field1, e1]
        rfl
      · have e1 : rest.getD 1 3 = 3 := List.getD_eq_default rest 3 (by omega)
        simp only [show (2 % 4 * 2 : Nat) = 4 from rfl, packByte_field2, e1]
        rfl
      · have e1 : rest.getD 2 3 = 3 := List.getD_eq_default rest 3 (by omega)
        simp only [show (3 % 4 * 2 : Nat) = 6 from rfl, packByte_field3, e1]
        rfl
    · have hdiv : i / 4 = (i - 4) / 4 + 1 := by omega
      have hmod : i % 4 = (i - 4) % 4 := by omega
      rw [he, hdiv, List.getD_cons_succ, hmod]
      apply ih
      · simp only [List.length_drop]; omega
      · simp only [List.length_drop]; omega

/-- C1: codec round-trip. For every signal vector with 2-bit values in
Low = 0, High = 1, Unset = 0b11, decoding the encoding yields the vector with
its maximal trailing run of Unset values removed; the empty vector encodes to
the empty buffer, and an all-Unset vector decodes back to the empty vector. -/
theorem codec_roundtrip (v : List Nat) (h : ∀ x ∈ v, x = 0 ∨ x = 1 ∨ x = 3) :
    _decode_inputs (_encode_outputs v) = trimUnset v ∧
    _encode_outputs [] = [] ∧
    (∀ k, _decode_inputs (_encode_outputs (List.replicate k 3)) = []) := by
  have main : ∀ w : List Nat, (∀ x ∈ w, x < 4) →
      _decode_inputs (_encode_outputs w) = trimUnset w := by
    intro w hw
    show trimUnset (decodeRaw (_encode_outputs w)) = trimUnset w
    rw [encode_eq_rec w]
    exact trim_decode_encodeRec w hw
  refine ⟨?_, rfl, ?_⟩
  · apply main
    intro x hx
    rcases h x hx with h0 | h0 | h0 <;> omega
  · intro k
    have h1 : _decode_inputs (_encode_outputs (List.replicate k 3)) =
        trimUnset (List.replicate k 3) := by
      apply main
      intro x hx
      have := List.eq_of_mem_replicate hx
      omega
    rw [h1]
    exact trim_append_replicate [] k

/-- Closed instance of the round-trip law at a concrete vector. -/
theorem codec_roundtrip_witness :
    _decode_inputs (_encode_outputs [1, 0, 3, 3, 1, 3, 3, 3]) = [1, 0, 3, 3, 1] := by
  have h := (codec_roundtrip [1, 0, 3, 3, 1, 3, 3, 3] (by decide)).1
  rw [h]
  decide

/-- C2: encode byte layout. For a vector of 2-bit channel values the encoder
returns exactly ceil(n / 4) bytes; channel i lands in the 2-bit field at bit
offset (i mod 4) * 2 of byte i / 4 (low channel first in a byte, low byte
first across the vector); fields beyond the vector keep the 0xFF
initialization, every channel Unset; encoding [0, 0, 0, 0] yields 0x00. -/
theorem encode_layout (v : List Nat) (hv : ∀ x ∈ v, x < 4) :
    (_encode_outputs v).length = (v.length + 3) / 4 ∧
    (∀ i, i < v.length →
      ((_encode_outputs v).getD (i / 4) 0 >>> (i % 4 * 2)) &&& 3 = v.getD i 0) ∧
    (∀ i, v.length ≤ i → i / 4 < (v.length + 3) / 4 →
      ((_encode_outputs v).getD (i / 4) 0 >>> (i % 4 * 2)) &&& 3 = 3) ∧
    _encode_outputs [0, 0, 0, 0] = [0x00] := by
  rw [encode_eq_rec v]
  refine ⟨encodeRec_len v, ?_, ?_, by decide⟩
  · intro i hi
    rw [encodeRec_field_in v i hi]
    have hmem : v.getD i 0 ∈ v := by
      rw [List.getD_eq_getElem v 0 hi]
      exact List.getElem_mem hi
    exact and_three_of_lt (v.getD i 0) (hv _ hmem)
  · intro i hlen hbyte
    exact encodeRec_field_pad v i hlen hbyte

/-- Closed instance of the byte layout at a concrete vector. -/
theorem encode_layout_witness :
    (_encode_outputs [1, 0, 3, 2, 1]).length = 2 ∧
    ((_encode_outputs [1, 0, 3, 2, 1]).getD 1 0 >>> 0) &&& 3 = 1 ∧
    ((_encode_outputs [1, 0, 3, 2, 1]).getD 1 0 >>> 2) &&& 3 = 3 := by
  have h := encode_layout [1, 0, 3, 2, 1] (by decide)
  refine ⟨h.1, ?_, ?_⟩
  · have h4 := h.2.1 4 (by decide)
    simpa using h4
  · have h5 := h.2.2.1 5 (by decide) (by decide)
    simpa using h5

/-! ## Pending-read synchronizer (BlenkyLayer.ble_input_future) -/

/-- State of the asyncio future stored in `BlenkyLayer.ble_input_future`:
not yet resolved, resolved with a decoded input tuple, or cancelled (the
state `asyncio.wait_for` leaves it in after a timeout). -/
inductive FutureState where
  | pending
  | resolved (value : List Nat)
  | cancelled
deriving DecidableEq

/-- Python exception classes the synchronizer model can surface. The code of
`BlenkyLayer` never raises `protocolViolation`; the constructor exists so the
specified behavior is statable. -/
inductive PyError where
  | protocolViolation
  | invalidStateError
  | typeError
  | cancelledError
deriving DecidableEq

/-- `asyncio.Future.done()`: true once the future is resolved or cancelled. -/
def future_done : FutureState → Bool
  | FutureState.pending => false
  | _ => true

/-- `asyncio.Future.set_result(v)`: resolves a pending future; raises
`InvalidStateError` on a future that is already done. -/
def future_set_result (f : FutureState) (v : List Nat) : Except PyError FutureState :=
  match f with
  | FutureState.pending => Except.ok (FutureState.resolved v)
  | _ => Except.error PyError.invalidStateError

/-- `BlenkyLayer.before_get_input`: `self.ble_input_future = asyncio.Future()`.
The slot is overwritten with a fresh pending future unconditionally; the
method body cannot raise. -/
def before_get_input (_slot : Option FutureState) : Except PyError (Option FutureState) :=
  Except.ok (some FutureState.pending)

/-- The notification callback `ble_input_handler` registered in
`BlenkyLayer.init`: decode the data, return untouched when the slot is `None`
or the future is already done, otherwise resolve the future with the decoded
inputs. The result is the new slot state. -/
def ble_input_handler (slot : Option FutureState) (data : List Nat) :
    Except PyError (Option FutureState) :=
  let inputs := _decode_inputs data
  match slot with
  | none => Except.ok none
  | some f =>
      if future_done f then Except.ok (some f)
      else (future_set_result f inputs).map some

/-- `BlenkyLayer.get_input`: await the armed future for at most 5 seconds and
index the delivered vector. `arrival` is the data of a notification delivered
during the wait, if any: a pending future with no arrival times out (the wait
cancels the future, the caught `asyncio.TimeoutError` is logged and `None`
returned); a short vector answers `None` through the caught `IndexError`. A
`None` slot makes `asyncio.wait_for` raise `TypeError`; awaiting an
already-cancelled future raises `CancelledError`. The pair is (returned
value or raised error, slot state after the call). -/
def get_input (slot : Option FutureState) (index : Nat) (arrival : Option (List Nat)) :
    Except PyError (Option Nat) × Option FutureState :=
  match slot with
  | none => (Except.error PyError.typeError, none)
  | some FutureState.pending =>
      match arrival with
      | some data =>
          let reported := _decode_inputs data
          (Except.ok reported[index]?, some (FutureState.resolved reported))
      | none => (Except.ok none, some FutureState.cancelled)
  | some (FutureState.resolved v) => (Except.ok v[index]?, some (FutureState.resolved v))
  | some FutureState.cancelled => (Except.error PyError.cancelledError, some FutureState.cancelled)

/-- C3 counterexample: arming while a read is already armed does not fail —
`before_get_input` succeeds and installs a fresh pending future in place of
the outstanding one. -/
theorem arm_while_armed_cex :
    before_get_input (some FutureState.pending) = Except.ok (some FutureState.pending) := rfl

/-- C3 amended: arming the pending-read slot always succeeds, whatever the
current slot state, and unconditionally replaces the slot with a fresh
pending future; no ProtocolViolation-kind failure exists on this path. -/
theorem arm_replaces (slot : Option FutureState) :
    before_get_input slot = Except.ok (some FutureState.pending) := rfl

/-- C4 counterexample: at slot = armed pending future and no notification
within the bound, `get_input` returns `None` (the same marker as an
unavailable channel, not a TimeoutError-kind failure) and leaves the slot
holding the cancelled future instead of clearing it to empty. -/
theorem get_input_timeout_cex :
    get_input (some FutureState.pending) 0 none = (Except.ok none, some FutureState.cancelled) ∧
    ¬ (get_input (some FutureState.pending) 0 none).2 = none := by
  refine ⟨rfl, by decide⟩

/-- C4 amended: when no notification arrives within the 5-second bound,
`get_input` catches the internal TimeoutError, logs it, and returns `None` —
indistinguishable from the unavailable-channel marker — while the slot keeps
the cancelled future rather than being cleared; a subsequent read can still
be armed because `before_get_input` overwrites the slot unconditionally. -/
theorem get_input_timeout (index : Nat) :
    get_input (some FutureState.pending) index none = (Except.ok none, some FutureState.cancelled) ∧
    before_get_input (some FutureState.cancelled) = Except.ok (some FutureState.pending) :=
  ⟨rfl, rfl⟩

/-- C8: the notification callback never raises; with no armed unresolved
future (slot `None`, already resolved, or cancelled) it leaves the slot
unchanged and drops the delivery; only a delivery into an armed pending
future resolves it, with the decoded inputs. -/
theorem safe_delivery (slot : Option FutureState) (data : List Nat) :
    (∃ s, ble_input_handler slot data = Except.ok s) ∧
    (slot ≠ some FutureState.pending → ble_input_handler slot data = Except.ok slot) ∧
    ble_input_handler (some FutureState.pending) data =
      Except.ok (some (FutureState.resolved (_decode_inputs data))) := by
  refine ⟨?_, ?_, rfl⟩
  · match slot with
    | none => exact ⟨none, rfl⟩
    | some FutureState.pending => exact ⟨some (FutureState.resolved (_decode_inputs data)), rfl⟩
    | some (FutureState.resolved v) => exact ⟨some (FutureState.resolved v), rfl⟩
    | some FutureState.cancelled => exact ⟨some FutureState.cancelled, rfl⟩
  · intro hne
    match slot with
    | none => rfl
    | some FutureState.pending => exact absurd rfl hne
    | some (FutureState.resolved v) => rfl
    | some FutureState.cancelled => rfl

/-- Closed instance of safe delivery: a duplicate notification into an
already-resolved slot is dropped and the slot state is unchanged. -/
theorem safe_delivery_witness :
    ble_input_handler (some (FutureState.resolved [1])) [255] =
      Except.ok (some (FutureState.resolved [1])) :=
  (safe_delivery (some (FutureState.resolved [1])) [255]).2.1 (by decide)

/-! ## Test orchestrator (Tester.run) -/

/-- The fixed `signals_list` of `Tester.run`. -/
def signals_list : List (List Nat) :=
  [[0, 0, 0, 0], [1, 0, 0, 0], [0, 1, 0, 0], [0, 0, 1, 0], [0, 0, 0, 1], [1, 1, 0, 0],
   [0, 0, 1, 1], [1, 0, 1, 0], [0, 1, 0, 1], [1, 1, 1, 1], [0, 0, 0, 0]]

/-- One observable action of `Tester.run`: a batch-signal test
(`test_signals`), a single-channel edge test (`test_signal`), or a call to a
layer teardown (`uninit`). `reversed` is false for the pairing
`(self.layers)` and true for `(self.layers[::-1])`. -/
inductive RunEffect where
  | testSignals (reversed : Bool) (signals : List Nat)
  | testSignal (reversed : Bool) (signal index : Nat)
  | uninitLayer (reversed : Bool)
deriving DecidableEq

def RunEffect.isBatchTest : RunEffect → Bool
  | RunEffect.testSignals _ _ => true
  | _ => false

def RunEffect.isSingleTest : RunEffect → Bool
  | RunEffect.testSignal _ _ _ => true
  | _ => false

def RunEffect.isUninitCall : RunEffect → Bool
  | RunEffect.uninitLayer _ => true
  | _ => false

/-- The ordered trace of tests `Tester.run` executes. Family A:
`for layers in (self.layers, self.layers[::-1]): for signals in signals_list`.
Family B: same two pairings, `for signal in (1, 0): for index in range(4)`.
Every iteration runs its test inside `try/except self.TestFailedError`, so an
earlier failure never removes a later test from the trace. The trailing `++
[]` is the `finally:` block, whose body is `pass` (the loop invoking
`layer.uninit` is commented out in the source), so no teardown effect is
emitted. -/
def runEffects : List RunEffect :=
  (signals_list.map (RunEffect.testSignals false) ++
    signals_list.map (RunEffect.testSignals true)) ++
  (((List.range 4).map (RunEffect.testSignal false 1) ++
      (List.range 4).map (RunEffect.testSignal false 0)) ++
    ((List.range 4).map (RunEffect.testSignal true 1) ++
      (List.range 4).map (RunEffect.testSignal true 0))) ++
  []

/-- The `test_count` pair of `Tester.run`: starting from `[0, 0]`, each test
adds one to `test_count[0]` when it passes and one to `test_count[1]` when it
raises `TestFailedError`. `outcome` abstracts the layers: whether a given
test passes. -/
def runTally (outcome : RunEffect → Bool) : Nat × Nat :=
  runEffects.foldl (fun tc e => if outcome e then (tc.1 + 1, tc.2) else (tc.1, tc.2 + 1)) (0, 0)

theorem tally_foldl {α : Type} (p : α → Bool) :
    ∀ (l : List α) (s f : Nat),
    l.foldl (fun tc e => if p e then (tc.1 + 1, tc.2) else (tc.1, tc.2 + 1)) (s, f) =
      (s + l.countP p, f + l.countP (fun e => !p e)) := by
  intro l
  induction l with
  | nil => intro s f; simp
  | cons a l ih =>
    intro s f
    by_cases hpa : p a = true
    · simp [List.foldl_cons, List.countP_cons, hpa, ih]
      all_goals omega
    · simp [List.foldl_cons, List.countP_cons, hpa, ih]
      all_goals omega

/-- C5: orchestrator completeness and tallying. The trace holds 38 tests: 22
batch tests (both pairing directions over the full 11-vector list) and 16
single-channel tests (2 directions x 2 signal values x 4 indices); whatever
the outcomes, the success and failure counters sum to 38 because every test
increments exactly one of them, and no test is dropped from the trace. -/
theorem orchestrator_complete (outcome : RunEffect → Bool) :
    runEffects.length = 38 ∧
    runEffects.countP RunEffect.isBatchTest = 22 ∧
    runEffects.countP RunEffect.isSingleTest = 16 ∧
    runTally outcome = (runEffects.countP outcome, runEffects.countP (fun e => !outcome e)) ∧
    (runTally outcome).1 + (runTally outcome).2 = 38 ∧
    (∀ s ∈ signals_list, RunEffect.testSignals false s ∈ runEffects ∧
      RunEffect.testSignals true s ∈ runEffects) ∧
    (∀ sig ∈ ([1, 0] : List Nat), ∀ idx ∈ List.range 4,
      RunEffect.testSignal false sig idx ∈ runEffects ∧
      RunEffect.testSignal true sig idx ∈ runEffects) := by
  have htally : runTally outcome =
      (runEffects.countP outcome, runEffects.countP (fun e => !outcome e)) := by
    rw [runTally, tally_foldl outcome runEffects 0 0]
    simp
  refine ⟨by decide, by decide, by decide, htally, ?_, by decide, by decide⟩
  rw [htally]
  have hsum := (List.length_eq_countP_add_countP outcome runEffects).symm
  have hlen : runEffects.length = 38 := by decide
  simp only at hsum ⊢
  have hnot : List.countP (fun a => decide (¬ outcome a = true)) runEffects =
      List.countP (fun e => !outcome e) runEffects := by
    apply List.countP_congr
    intro x _
    by_cases hx : outcome x <;> simp [hx]
  omega

/-- Closed instance of the tallying law: with the batch-test predicate as the
outcome oracle the counters read (22, 16) and sum to 38. -/
theorem orchestrator_complete_witness :
    (runTally RunEffect.isBatchTest).1 + (runTally RunEffect.isBatchTest).2 = 38 ∧
    RunEffect.testSignals true [0, 1, 0, 1] ∈ runEffects := by
  have h := orchestrator_complete RunEffect.isBatchTest
  exact ⟨h.2.2.2.2.1, (h.2.2.2.2.2.1 [0, 1, 0, 1] (by decide)).2⟩

/-- C6 counterexample: the trace of `Tester.run` contains no `uninit` call on
either endpoint — the teardown loop in the `finally:` block is commented out,
its body is `pass`. -/
theorem run_no_teardown_cex :
    ¬ RunEffect.uninitLayer false ∈ runEffects ∧ ¬ RunEffect.uninitLayer true ∈ runEffects := by
  refine ⟨by decide, by decide⟩

/-- C6 amended: `Tester.run` performs no teardown at all: its `finally:`
block is a no-op (`pass`; the loop invoking `uninit` on the layers is
commented out), so no exit path of the test run invokes `uninit` on any
endpoint; teardown is left to the process-level `atexit` GPIO cleanup
outside `run`. -/
theorem run_no_teardown : runEffects.countP RunEffect.isUninitCall = 0 := by decide

/-! ## Tester constructor (Tester.__init__) -/

/-- Python exception type raised by `Tester.__init__`. -/
inductive TesterError where
  | notImplementedError
deriving DecidableEq

/-- `Tester.__init__`: `if(len(layers) != 2): raise NotImplementedError(...)`
— the message is `Only 2 layers supported` — before anything else; otherwise
the layer tuple is stored as given. -/
def Tester_init {α : Type} (layers : List α) : Except TesterError (List α) :=
  if layers.length ≠ 2 then Except.error TesterError.notImplementedError
  else Except.ok layers

/-- C10: constructing a Tester with any number of layers other than two
raises NotImplementedError before any other effect; with exactly two layers
the constructor succeeds and stores the pair. -/
theorem tester_arity {α : Type} (layers : List α) :
    (layers.length ≠ 2 → Tester_init layers = Except.error TesterError.notImplementedError) ∧
    (layers.length = 2 → Tester_init layers = Except.ok layers) := by
  constructor
  · intro h
    simp [Tester_init, h]
  · intro h
    simp [Tester_init, h]

/-- Closed instance of the arity guard at one and at two layers. -/
theorem tester_arity_witness :
    Tester_init [0] = Except.error TesterError.notImplementedError ∧
    Tester_init [0, 1] = Except.ok [0, 1] :=
  ⟨(tester_arity [0]).1 (by decide), (tester_arity [0, 1]).2 (by decide)⟩

/-! ## Timing-window verifier (test_inputs_delayed) -/

/-- Python exception classes `test_inputs_delayed` can raise. The source
raises the builtin `TimeoutError` at both of its raise sites; `timingViolationKind`
exists only so the specified distinct error kind is statable. -/
inductive PyExcKind where
  | timeoutErrorKind
  | timingViolationKind
deriving DecidableEq

/-- The exception raised by `test_inputs_delayed`: its Python class, which of
the two messages it was formatted with (`tooLong` true for the message
`runtime slept for too long`, false for `runtime slept for too short`), and
the interpolated values of that f-string: `int(time_delta * 1000)`, the
millisecond bound, and the inputs read by the extra `get_inputs()` call in
the message. -/
structure TimingError where
  kind : PyExcKind
  tooLong : Bool
  deltaMs : Int
  boundMs : Int
  inputsAtRaise : List Nat
deriving DecidableEq

/-- Python `int()` on a rational value: truncation toward zero. -/
def pyInt (q : ℚ) : Int := q.num.tdiv q.den

/-- The polling loop of `test_inputs_delayed`, modelled over abstract traces:
`readings k` is the value of the k-th `gpioLayer.get_inputs()` call and
`elapsed t` the value of `time.time() - time_start` computed by the t-th loop
body (exact rationals stand in for Python floats). Each iteration checks
`get_inputs() != target_states`; if equal, the loop exits with the
`time_delta` recorded by the previous body (initially 0) and raises
`TimeoutError` (message `runtime slept for too short`) when it is below
`timeout_min = timeout_min_ms / 1000`, else returns `int(time_delta *
1000)`. Otherwise the body sets `time_delta`, raises `TimeoutError` (message
`runtime slept for too long`) when it exceeds `timeout_max =
timeout_max_ms / 1000`, sleeps, and loops. `fuel` bounds how many loop
iterations are unrolled; `none` means the loop was still running. -/
def tid_loop (target : List Nat) (timeout_min_ms timeout_max_ms : Int)
    (readings : Nat → List Nat) (elapsed : Nat → ℚ) :
    Nat → Nat → Nat → ℚ → Option (Except TimingError Int)
  | 0, _, _, _ => none
  | fuel + 1, k, t, time_delta =>
    if readings k ≠ target then
      let d := elapsed t
      if d > (timeout_max_ms : ℚ) / 1000 then
        some (Except.error
          ⟨PyExcKind.timeoutErrorKind, true, pyInt (d * 1000), timeout_max_ms, readings (k + 1)⟩)
      else
        tid_loop target timeout_min_ms timeout_max_ms readings elapsed fuel (k + 1) (t + 1) d
    else
      if time_delta < (timeout_min_ms : ℚ) / 1000 then
        some (Except.error
          ⟨PyExcKind.timeoutErrorKind, false, pyInt (time_delta * 1000), timeout_min_ms,
            readings (k + 1)⟩)
      else
        some (Except.ok (pyInt (time_delta * 1000)))

/-- `test_inputs_delayed(target_states, timeout_min_ms, timeout_max_ms)`:
start the loop with `time_delta = 0` and fresh call counters. -/
def test_inputs_delayed (fuel : Nat) (target_states : List Nat)
    (timeout_min_ms timeout_max_ms : Int)
    (readings : Nat → List Nat) (elapsed : Nat → ℚ) : Option (Except TimingError Int) :=
  tid_loop target_states timeout_min_ms timeout_max_ms readings elapsed fuel 0 0 0

/-- C7 counterexample: both failure paths of `test_inputs_delayed` raise the
same exception class, the builtin `TimeoutError`. Reaching the target with
elapsed time below `timeout_min_ms` (first conjunct) produces a
`timeoutErrorKind` error exactly like exceeding `timeout_max_ms` (second
conjunct) — there is no distinct TimingViolation kind. -/
theorem timing_error_kind_cex :
    test_inputs_delayed 1 [1, 1, 1, 1] 100 1000 (fun _ => [1, 1, 1, 1]) (fun _ => 0) =
      some (Except.error ⟨PyExcKind.timeoutErrorKind, false, 0, 100, [1, 1, 1, 1]⟩) ∧
    test_inputs_delayed 2 [1] 0 1000 (fun _ => [0]) (fun _ => 2) =
      some (Except.error ⟨PyExcKind.timeoutErrorKind, true, 2000, 1000, [0]⟩) := by
  constructor
  · rw [test_inputs_delayed, tid_loop]
    norm_num [pyInt]
  · rw [test_inputs_delayed, tid_loop]
    norm_num [pyInt]

/-- C7 amended: whenever the poll finds the target (with at least one loop
step of fuel left), the loop exits: if the recorded elapsed time is below
`timeout_min_ms / 1000` it raises the builtin `TimeoutError` with the message
`runtime slept for too short` — the same exception class as the
`timeout_max_ms` path, distinguished only by message, not a distinct
TimingViolation kind — and otherwise it returns the elapsed time in
milliseconds, `int(time_delta * 1000)`. -/
theorem timing_lower_bound (target : List Nat) (tminMs tmaxMs : Int)
    (readings : Nat → List Nat) (elapsed : Nat → ℚ) (fuel k t : Nat) (delta : ℚ)
    (hmatch : readings k = target) :
    tid_loop target tminMs tmaxMs readings elapsed (fuel + 1) k t delta =
      some (if delta < (tminMs : ℚ) / 1000 then
          Except.error
            ⟨PyExcKind.timeoutErrorKind, false, pyInt (delta * 1000), tminMs, readings (k + 1)⟩
        else Except.ok (pyInt (delta * 1000))) := by
  rw [tid_loop]
  simp only [hmatch, ne_eq, not_true_eq_false, if_false]
  split <;> rfl

/-- Closed instance of the exit-step law: target met at once with a positive
minimum bound raises the too-short TimeoutError. -/
theorem timing_lower_bound_witness :
    tid_loop [1] 100 1000 (fun _ => [1]) (fun _ => 0) 1 0 0 0 =
      some (Except.error ⟨PyExcKind.timeoutErrorKind, false, 0, 100, [1]⟩) := by
  rw [timing_lower_bound [1] 100 1000 (fun _ => [1]) (fun _ => 0) 0 0 0 0 rfl]
  norm_num [pyInt]

/-! ## Chunked gpioASM upload (upload_gpioasm_file) -/

/-- The upload loop of `upload_gpioasm_file`: `index = 0; while len(payload) > 0:`
set `status_byte = 0b10000000` when `len(payload) > 19` else `0x00`, write the
packet `[(status_byte | index)] + payload[:19]`, then `index += 1` and
`payload = payload[19:]`. The result is the list of written packets. -/
def upload_chunks (index : Nat) (payload : List Nat) : List (List Nat) :=
  if h : 0 < payload.length then
    (((if 19 < payload.length then 128 else 0) ||| index) :: payload.take 19) ::
      upload_chunks (index + 1) (payload.drop 19)
  else []
termination_by payload.length
decreasing_by simp [List.length_drop]; omega

/-- `upload_gpioasm_file`: the compiled payload is written as the packet
sequence produced by the upload loop starting at chunk index 0 (the
compilation step is the external gpioasm collaborator). -/
def upload_gpioasm_file (payload : List Nat) : List (List Nat) :=
  upload_chunks 0 payload

theorem upload_chunks_length : ∀ (index : Nat) (payload : List Nat),
    (upload_chunks index payload).length = (payload.length + 18) / 19 := by
  intro index payload
  induction index, payload using upload_chunks.induct with
  | case1 index payload h ih =>
    rw [upload_chunks, dif_pos h]
    simp only [List.length_cons, ih, List.length_drop]
    omega
  | case2 index payload h =>
    rw [upload_chunks, dif_neg h]
    simp only [List.length_nil]
    omega

theorem upload_chunks_getD : ∀ (index : Nat) (payload : List Nat), ∀ j,
    j < (payload.length + 18) / 19 →
    (upload_chunks index payload).getD j [] =
      ((if 19 * (j + 1) < payload.length then 128 else 0) ||| (index + j)) ::
        (payload.drop (19 * j)).take 19 := by
  intro index payload
  induction index, payload using upload_chunks.induct with
  | case1 index payload h ih =>
    intro j hj
    rw [upload_chunks, dif_pos h]
    match j with
    | 0 =>
      rw [List.getD_cons_zero]
      simp only [Nat.mul_one, Nat.add_zero, Nat.mul_zero, List.drop_zero]
    | j + 1 =>
      rw [List.getD_cons_succ]
      have hj2 : j < ((payload.drop 19).length + 18) / 19 := by
        simp only [List.length_drop]
        omega
      rw [ih j hj2]
      have hlen20 : 20 ≤ payload.length := by
        simp only [List.length_drop] at hj2
        omega
      have hiff : 19 * (j + 1) < (payload.drop 19).length ↔
          19 * (j + 1 + 1) < payload.length := by
        simp only [List.length_drop]
        omega
      have hidx : index + 1 + j = index + (j + 1) := by omega
      have hdrop : (payload.drop 19).drop (19 * j) = payload.drop (19 * (j + 1)) := by
        rw [List.drop_drop]
        congr 1
        omega
      rw [hidx, hdrop]
      simp only [hiff]
  | case2 index payload h =>
    intro j hj
    exfalso
    have : payload.length = 0 := by omega
    omega

theorem or128_eq_add : ∀ j < 128, 128 ||| j = 128 + j := by decide

/-- C9 amended: for payloads spanning at most 128 chunks (length at most
2432 bytes, so every chunk index fits in 7 bits), `upload_gpioasm_file`
writes ceil(len / 19) packets; packet j is one header byte followed by at
most 19 payload bytes — the slice `payload[19 j : 19 j + 19]` — and the
header byte has its high bit set exactly when more chunks follow, with its
low 7 bits equal to the zero-based chunk index j. Beyond 128 chunks the
unmasked `status_byte | index` spills the index into the high bit. -/
theorem upload_chunks_layout (payload : List Nat) (h : payload.length ≤ 2432) :
    (upload_gpioasm_file payload).length = (payload.length + 18) / 19 ∧
    ∀ j, j < (payload.length + 18) / 19 →
      ∃ hdr, (upload_gpioasm_file payload).getD j [] =
          hdr :: (payload.drop (19 * j)).take 19 ∧
        ((payload.drop (19 * j)).take 19).length ≤ 19 ∧
        hdr % 128 = j ∧
        (128 ≤ hdr ↔ j + 1 < (payload.length + 18) / 19) := by
  constructor
  · exact upload_chunks_length 0 payload
  · intro j hj
    have hj128 : j < 128 := by omega
    rw [upload_gpioasm_file, upload_chunks_getD 0 payload j hj]
    have htake : ((payload.drop (19 * j)).take 19).length ≤ 19 := by
      simp [List.length_take, List.length_drop]
    by_cases hmore : 19 * (j + 1) < payload.length
    · refine ⟨128 + j, ?_, htake, by omega, by omega⟩
      rw [if_pos hmore, Nat.zero_add, or128_eq_add j hj128]
    · refine ⟨j, ?_, htake, by omega, by omega⟩
      rw [if_neg hmore, Nat.zero_add, Nat.zero_or]

/-- Closed instance of the chunk layout: the middle packet of a 40-byte
payload (3 chunks) has header 128 + 1 and the 19-byte middle slice. -/
theorem upload_chunks_layout_witness :
    ∃ hdr, (upload_gpioasm_file (List.replicate 40 7)).getD 1 [] =
        hdr :: ((List.replicate 40 7).drop (19 * 1)).take 19 ∧
      (((List.replicate 40 7).drop (19 * 1)).take 19).length ≤ 19 ∧
      hdr % 128 = 1 ∧
      (128 ≤ hdr ↔ 1 + 1 < ((List.replicate 40 7).length + 18) / 19) :=
  (upload_chunks_layout (List.replicate 40 7) (by norm_num)).2 1 (by norm_num)

/-- C9 counterexample: a 2433-byte payload needs 129 chunks; its last packet
(chunk index 128) gets header byte `0x00 | 128 = 128`, whose high bit is set
although no chunk follows and whose low 7 bits are 0, not the chunk index
128 — the claimed header format fails once the index reaches 128. -/
theorem upload_chunks_cex :
    (upload_gpioasm_file (List.replicate 2433 0)).length = 129 ∧
    ((upload_gpioasm_file (List.replicate 2433 0)).getD 128 []).headD 0 = 128 := by
  constructor
  · rw [upload_gpioasm_file, upload_chunks_length]
    norm_num
  · rw [upload_gpioasm_file, upload_chunks_getD 0 (List.replicate 2433 0) 128 (by norm_num)]
    norm_num
